import Mathlib

/-!
Verification of the field-extraction engine of the batemo cell scraper
(`scrape_cells.py`).  Python strings are modelled as `List Char`, Python
floats as `ℚ` (exact arithmetic over the decimal literals that occur in the
corpus), `None` as `Option.none`.  Each definition is a shallow embedding of
the correspondingly named Python function.
-/

namespace Batemo

/-- The whitespace class of Python's `\s` (ASCII part) and `str.strip()`. -/
def isPySpace (c : Char) : Bool :=
  c = ' ' || c = '\t' || c = '\n' || c = '\r' || c = '\x0b' || c = '\x0c'

/-- One pass of `re.sub(r"\s+", " ", text)`: the flag records whether the
previously consumed character was whitespace (so a run emits one space). -/
def collapseAux : Bool → List Char → List Char
  | _, [] => []
  | prevSpace, c :: cs =>
    if isPySpace c then
      if prevSpace then collapseAux true cs
      else ' ' :: collapseAux true cs
    else c :: collapseAux false cs

/-- `re.sub(r"\s+", " ", text)`: every maximal whitespace run becomes one space. -/
def collapseWS (l : List Char) : List Char := collapseAux false l

theorem collapseAux_true_space {c : Char} (h : isPySpace c = true) (cs : List Char) :
    collapseAux true (c :: cs) = collapseAux true cs := by
  simp [collapseAux, h]

theorem collapseAux_false_space {c : Char} (h : isPySpace c = true) (cs : List Char) :
    collapseAux false (c :: cs) = ' ' :: collapseAux true cs := by
  simp [collapseAux, h]

theorem collapseAux_solid {c : Char} (h : isPySpace c = false) (b : Bool) (cs : List Char) :
    collapseAux b (c :: cs) = c :: collapseAux false cs := by
  simp [collapseAux, h]

/-- Python `str.strip()`: drop leading and trailing whitespace. -/
def pstrip (l : List Char) : List Char :=
  ((l.dropWhile isPySpace).reverse.dropWhile isPySpace).reverse

/-- `normalize_whitespace` from `scrape_cells.py`:
`re.sub(r"\s+", " ", text).strip()`. -/
def normalize_whitespace (l : List Char) : List Char := pstrip (collapseWS l)

/-! Characterisation of collapsed text: all whitespace characters are the
plain blank, and no two adjacent characters are both whitespace. -/

/-- Every whitespace character in the list is a plain blank. -/
def AllBlank (l : List Char) : Prop := ∀ c ∈ l, isPySpace c = true → c = ' '

/-- No two adjacent characters are both whitespace. -/
def NoDbl (l : List Char) : Prop :=
  List.Chain' (fun a b => ¬(isPySpace a = true ∧ isPySpace b = true)) l

theorem allBlank_collapseAux (l : List Char) :
    ∀ b, AllBlank (collapseAux b l) := by
  induction l with
  | nil => intro b; intro c hc; cases hc
  | cons c cs ih =>
    intro b
    by_cases hc : isPySpace c = true
    · cases b with
      | true => rw [collapseAux_true_space hc]; exact ih true
      | false =>
        rw [collapseAux_false_space hc]
        intro d hd hds
        rcases List.mem_cons.mp hd with h | h
        · exact h
        · exact ih true d h hds
    · rw [collapseAux_solid (eq_false_of_ne_true hc)]
      intro d hd hds
      rcases List.mem_cons.mp hd with h | h
      · subst h; exact absurd hds hc
      · exact ih false d h hds

/-- The head of `collapseAux true l` is never whitespace. -/
def HeadSolid (l : List Char) : Prop :=
  ∀ c, l.head? = some c → isPySpace c = false

theorem noDbl_collapseAux (l : List Char) :
    NoDbl (collapseAux false l) ∧ NoDbl (collapseAux true l) ∧
      HeadSolid (collapseAux true l) := by
  induction l with
  | nil => refine ⟨List.chain'_nil, List.chain'_nil, ?_⟩; intro c h; cases h
  | cons c cs ih =>
    obtain ⟨ihF, ihT, ihH⟩ := ih
    by_cases hc : isPySpace c = true
    · refine ⟨?_, by rw [collapseAux_true_space hc]; exact ihT,
        by rw [collapseAux_true_space hc]; exact ihH⟩
      rw [collapseAux_false_space hc]
      refine List.chain'_cons'.mpr ⟨?_, ihT⟩
      intro b hb
      intro hcontra
      exact absurd hcontra.2 (by simp [ihH b hb])
    · have hc' : isPySpace c = false := eq_false_of_ne_true hc
      have hhead : HeadSolid (c :: collapseAux false cs) := by
        intro d hd; simp only [List.head?_cons, Option.some.injEq] at hd
        subst hd; exact hc'
      have hch : NoDbl (c :: collapseAux false cs) := by
        refine List.chain'_cons'.mpr ⟨?_, ihF⟩
        intro b hb hcontra
        exact hc hcontra.1
      exact ⟨by rw [collapseAux_solid hc']; exact hch,
        by rw [collapseAux_solid hc']; exact hch,
        by rw [collapseAux_solid hc']; exact hhead⟩

theorem collapseAux_eq_self (l : List Char) :
    (AllBlank l → NoDbl l → collapseAux false l = l) ∧
      (AllBlank l → NoDbl l → HeadSolid l → collapseAux true l = l) := by
  induction l with
  | nil => exact ⟨fun _ _ => rfl, fun _ _ _ => rfl⟩
  | cons c cs ih =>
    obtain ⟨ihF, ihT⟩ := ih
    constructor
    · intro hb hn
      have hbcs : AllBlank cs := fun d hd => hb d (List.mem_cons_of_mem _ hd)
      have hncs : NoDbl cs := hn.tail
      by_cases hc : isPySpace c = true
      · have hcblank : c = ' ' := hb c (List.mem_cons_self _ _) hc
        have hhd : HeadSolid cs := by
          intro d hd
          have := (List.chain'_cons'.mp hn).1 d hd
          by_contra hcon
          exact this ⟨hc, by simpa using hcon⟩
        rw [collapseAux_false_space hc, ihT hbcs hncs hhd, hcblank]
      · rw [collapseAux_solid (eq_false_of_ne_true hc), ihF hbcs hncs]
    · intro hb hn hh
      have hbcs : AllBlank cs := fun d hd => hb d (List.mem_cons_of_mem _ hd)
      have hncs : NoDbl cs := hn.tail
      have hc : isPySpace c = false := hh c rfl
      rw [collapseAux_solid hc, ihF hbcs hncs]

theorem mem_of_mem_dropWhile {p : Char → Bool} {l : List Char} {c : Char}
    (h : c ∈ l.dropWhile p) : c ∈ l := by
  induction l with
  | nil => simp at h
  | cons a as ih =>
    by_cases ha : p a = true
    · simp only [List.dropWhile_cons, ha, if_true] at h
      exact List.mem_cons_of_mem _ (ih h)
    · simp only [List.dropWhile_cons, ha] at h
      simpa using h

theorem allBlank_pstrip {l : List Char} (h : AllBlank l) : AllBlank (pstrip l) := by
  intro c hc
  apply h c
  unfold pstrip at hc
  rw [List.mem_reverse] at hc
  have := mem_of_mem_dropWhile hc
  rw [List.mem_reverse] at this
  exact mem_of_mem_dropWhile this

theorem noDbl_dropWhile {p : Char → Bool} {l : List Char} (h : NoDbl l) :
    NoDbl (l.dropWhile p) := by
  induction l with
  | nil => simpa using h
  | cons a as ih =>
    by_cases ha : p a = true
    · simp only [List.dropWhile_cons, ha, if_true]
      exact ih h.tail
    · simpa [List.dropWhile_cons, ha] using h

theorem noDbl_reverse {l : List Char} (h : NoDbl l) : NoDbl l.reverse := by
  unfold NoDbl at h ⊢
  rw [List.chain'_reverse]
  exact h.imp fun a b hab hc => hab ⟨hc.2, hc.1⟩

theorem noDbl_pstrip {l : List Char} (h : NoDbl l) : NoDbl (pstrip l) := by
  unfold pstrip
  exact noDbl_reverse (noDbl_dropWhile (noDbl_reverse (noDbl_dropWhile h)))

theorem dropWhile_dropWhile (p : Char → Bool) (l : List Char) :
    (l.dropWhile p).dropWhile p = l.dropWhile p := by
  induction l with
  | nil => rfl
  | cons a as ih =>
    by_cases ha : p a = true
    · simp [List.dropWhile_cons, ha, ih]
    · simp [List.dropWhile_cons, ha]

theorem head_dropWhile_false {p : Char → Bool} {l : List Char} {c : Char}
    (h : (l.dropWhile p).head? = some c) : p c = false := by
  have := List.head?_dropWhile_not p l
  rw [h] at this
  exact this

theorem dropWhile_eq_self_of_head {p : Char → Bool} {l : List Char}
    (h : ∀ c, l.head? = some c → p c = false) : l.dropWhile p = l := by
  cases l with
  | nil => rfl
  | cons a as => simp [List.dropWhile_cons, h a rfl]

/-- `str.strip()` is idempotent. -/
theorem pstrip_pstrip (l : List Char) : pstrip (pstrip l) = pstrip l := by
  have h1 : ((l.dropWhile isPySpace).reverse.dropWhile isPySpace).reverse.dropWhile
      isPySpace = ((l.dropWhile isPySpace).reverse.dropWhile isPySpace).reverse := by
    apply dropWhile_eq_self_of_head
    intro c hc
    rw [List.head?_reverse] at hc
    have hBne : (l.dropWhile isPySpace).reverse.dropWhile isPySpace ≠ [] := by
      intro hnil; rw [hnil] at hc; cases hc
    obtain ⟨u, hu⟩ :=
      List.dropWhile_suffix (l := (l.dropWhile isPySpace).reverse) isPySpace
    have h2 : (u ++ (l.dropWhile isPySpace).reverse.dropWhile isPySpace).getLast? =
        ((l.dropWhile isPySpace).reverse.dropWhile isPySpace).getLast? :=
      List.getLast?_append_of_ne_nil u hBne
    rw [hu] at h2
    rw [← h2, List.getLast?_reverse] at hc
    exact head_dropWhile_false hc
  unfold pstrip
  rw [h1, List.reverse_reverse, dropWhile_dropWhile]

theorem collapseWS_pstrip_collapseWS (l : List Char) :
    collapseWS (pstrip (collapseWS l)) = pstrip (collapseWS l) := by
  have hb : AllBlank (pstrip (collapseWS l)) :=
    allBlank_pstrip (allBlank_collapseAux l false)
  have hn : NoDbl (pstrip (collapseWS l)) :=
    noDbl_pstrip (noDbl_collapseAux l).1
  exact (collapseAux_eq_self _).1 hb hn

/-- **C9.** `normalize_whitespace` (which replaces every maximal whitespace
run by one blank and then strips both ends) is a total function and is
idempotent: normalising twice yields the same result as normalising once. -/
theorem normalize_whitespace_idem (l : List Char) :
    normalize_whitespace (normalize_whitespace l) = normalize_whitespace l := by
  unfold normalize_whitespace
  rw [collapseWS_pstrip_collapseWS, pstrip_pstrip]

/-! ### Numeric parsing (`to_float`) -/

/-- Numeric value of a list of decimal digits (most significant first). -/
def digitsVal (l : List Char) : ℕ :=
  l.foldl (fun a c => 10 * a + (c.toNat - '0'.toNat)) 0

/-- Model of Python's builtin `float()` on an already-stripped string,
restricted to finite decimal literals: optional sign, integer digits,
optional fraction, optional decimal exponent.  (`inf`/`nan`, which have no
rational value, and digit-group underscores do not occur in this corpus.)
Returns the exact rational value, `none` where `float()` raises
`ValueError`. -/
def pyFloat (l : List Char) : Option ℚ :=
  let sgnRest : ℤ × List Char :=
    match l with
    | c :: t => if c = '+' then (1, t) else if c = '-' then (-1, t) else (1, l)
    | [] => (1, l)
  let sgn := sgnRest.1
  let r1 := sgnRest.2
  let ip := r1.takeWhile Char.isDigit
  let r2 := r1.dropWhile Char.isDigit
  let fpRest : List Char × List Char :=
    match r2 with
    | c :: t =>
      if c = '.' then (t.takeWhile Char.isDigit, t.dropWhile Char.isDigit)
      else ([], r2)
    | [] => ([], r2)
  let fp := fpRest.1
  let r3 := fpRest.2
  if ip.isEmpty && fp.isEmpty then none
  else
    -- value = sign * (ipdigits.fpdigits) * 10^exponent, as an exact rational
    let mantNum : ℤ := sgn * ((digitsVal ip : ℤ) * 10 ^ fp.length + (digitsVal fp : ℤ))
    let mantDen : ℕ := 10 ^ fp.length
    match r3 with
    | [] => some (mkRat mantNum mantDen)
    | e :: t =>
      if e = 'e' || e = 'E' then
        let esgnRest : Bool × List Char :=
          match t with
          | c :: u =>
            if c = '+' then (false, u)
            else if c = '-' then (true, u) else (false, t)
          | [] => (false, t)
        let ed := esgnRest.2.takeWhile Char.isDigit
        let r4 := esgnRest.2.dropWhile Char.isDigit
        if ed.isEmpty || !r4.isEmpty then none
        else if esgnRest.1 then some (mkRat mantNum (mantDen * 10 ^ digitsVal ed))
        else some (mkRat (mantNum * 10 ^ digitsVal ed) mantDen)
      else none

/-- The comma-to-period substitution of `value.replace(",", ".")`. -/
def commaToDot (c : Char) : Char := if c = ',' then '.' else c

/-- `to_float` from `scrape_cells.py`: `None`/empty input yields `None`;
otherwise strip, turn every comma into a period, and parse as a float,
yielding `None` (never an error) on parse failure. -/
def to_float : Option (List Char) → Option ℚ
  | none => none
  | some v => if v.isEmpty then none else pyFloat ((pstrip v).map commaToDot)

/-- **C5.** `to_float` is total (always returns an optional value, never an
error): absent or empty input yields absence; any other input is stripped,
has commas replaced by periods, and is parsed as a float with absence on
parse failure.  Concretely `"3,5"` and `"3.5"` both parse to 3.5, while
`""` and `"abc"` yield absence. -/
theorem to_float_spec :
    to_float none = none ∧
    to_float (some "".toList) = none ∧
    (∀ v : List Char,
      to_float (some v) =
        if v.isEmpty then none else pyFloat ((pstrip v).map commaToDot)) ∧
    to_float (some "3,5".toList) = some (mkRat 7 2) ∧
    to_float (some "3.5".toList) = some (mkRat 7 2) ∧
    (mkRat 7 2 : ℚ) = 3.5 ∧
    to_float (some "abc".toList) = none := by
  refine ⟨rfl, rfl, fun v => rfl, by decide, by decide, by norm_num, by decide⟩

/-! ### Substring search (`str.find`) and block segmentation (`extract_block`) -/

/-- `leadsList p l` : the pattern `p` is an initial run of `l`. -/
def leadsList : List Char → List Char → Bool
  | [], _ => true
  | _ :: _, [] => false
  | a :: p, b :: l => a == b && leadsList p l

/-- The pattern `p` occurs in `t` at position `j` (a valid position of the
Python string `t`, as `str.find` reports them). -/
def MatchesAt (p t : List Char) (j : ℕ) : Prop :=
  j ≤ t.length ∧ leadsList p (t.drop j) = true

instance (p t : List Char) (j : ℕ) : Decidable (MatchesAt p t j) := by
  unfold MatchesAt; infer_instance

theorem leadsList_length {p l : List Char} (h : leadsList p l = true) :
    p.length ≤ l.length := by
  induction p generalizing l with
  | nil => simp
  | cons a p ih =>
    cases l with
    | nil => cases h
    | cons b l =>
      simp only [leadsList, Bool.and_eq_true] at h
      simpa using ih h.2

/-- Index of the first occurrence of `pat` in `txt` (if any). -/
def findIdx : List Char → List Char → Option ℕ
  | t, p =>
    if leadsList p t then some 0
    else
      match t with
      | [] => none
      | _ :: t' => (findIdx t' p).map (· + 1)

/-- Python `txt.find(pat, start)`, with `-1` modelled as `none`. -/
def pyFind (txt pat : List Char) (start : ℕ) : Option ℕ :=
  if txt.length < start then none
  else (findIdx (txt.drop start) pat).map (· + start)

theorem findIdx_nil (p : List Char) :
    findIdx [] p = if leadsList p [] then some 0 else none := rfl

theorem findIdx_cons (c : Char) (t p : List Char) :
    findIdx (c :: t) p =
      if leadsList p (c :: t) then some 0 else (findIdx t p).map (· + 1) := rfl

theorem findIdx_spec (p : List Char) : ∀ t : List Char,
    (∀ i, findIdx t p = some i →
      leadsList p (t.drop i) = true ∧ i ≤ t.length ∧
        ∀ j, j < i → leadsList p (t.drop j) = false) ∧
    (findIdx t p = none → ∀ j, leadsList p (t.drop j) = false) := by
  intro t
  induction t with
  | nil =>
    constructor
    · intro i hi
      by_cases h : leadsList p [] = true
      · rw [findIdx_nil, if_pos h] at hi
        cases hi
        exact ⟨h, Nat.le_refl _, fun j hj => absurd hj (Nat.not_lt_zero j)⟩
      · rw [findIdx_nil, if_neg h] at hi
        cases hi
    · intro hn j
      by_cases h : leadsList p [] = true
      · rw [findIdx_nil, if_pos h] at hn; cases hn
      · simpa using eq_false_of_ne_true h
  | cons c t ih =>
    constructor
    · intro i hi
      by_cases h : leadsList p (c :: t) = true
      · rw [findIdx_cons, if_pos h] at hi
        cases hi
        exact ⟨h, Nat.zero_le _, fun j hj => absurd hj (Nat.not_lt_zero j)⟩
      · rw [findIdx_cons, if_neg h] at hi
        rcases Option.map_eq_some'.mp hi with ⟨i', hi', rfl⟩
        obtain ⟨h1, h2, h3⟩ := ih.1 i' hi'
        refine ⟨by simpa using h1, by simpa using h2, ?_⟩
        intro j hj
        cases j with
        | zero => simpa using eq_false_of_ne_true h
        | succ j' =>
          rw [List.drop_succ_cons]
          exact h3 j' (Nat.lt_of_succ_lt_succ hj)
    · intro hn j
      by_cases h : leadsList p (c :: t) = true
      · rw [findIdx_cons, if_pos h] at hn; cases hn
      · rw [findIdx_cons, if_neg h] at hn
        have ht : findIdx t p = none := by
          cases hfi : findIdx t p with
          | none => rfl
          | some v => rw [hfi] at hn; cases hn
        cases j with
        | zero => simpa using eq_false_of_ne_true h
        | succ j' =>
          rw [List.drop_succ_cons]
          exact ih.2 ht j'

theorem pyFind_some {txt pat : List Char} {start i : ℕ}
    (h : pyFind txt pat start = some i) :
    start ≤ i ∧ MatchesAt pat txt i ∧
      ∀ j, start ≤ j → j < i → ¬ MatchesAt pat txt j := by
  unfold pyFind at h
  by_cases hs : txt.length < start
  · rw [if_pos hs] at h; cases h
  · rw [if_neg hs] at h
    rcases Option.map_eq_some'.mp h with ⟨i', hi', rfl⟩
    obtain ⟨h1, h2, h3⟩ := (findIdx_spec pat (txt.drop start)).1 i' hi'
    rw [List.drop_drop] at h1
    have hlen : i' + start ≤ txt.length := by
      have := h2
      rw [List.length_drop] at this
      omega
    refine ⟨Nat.le_add_left _ _, ⟨hlen, by rwa [Nat.add_comm] at h1⟩, ?_⟩
    intro j hj1 hj2 hmj
    have hfls : leadsList pat ((txt.drop start).drop (j - start)) = false := by
      apply h3
      omega
    rw [List.drop_drop] at hfls
    have hj' : start + (j - start) = j := by omega
    rw [hj'] at hfls
    exact absurd hmj.2 (by simp [hfls])

theorem pyFind_none {txt pat : List Char} {start : ℕ}
    (h : pyFind txt pat start = none) :
    ∀ j, start ≤ j → ¬ MatchesAt pat txt j := by
  intro j hj hmj
  unfold pyFind at h
  by_cases hs : txt.length < start
  · exact absurd hmj.1 (by omega)
  · rw [if_neg hs] at h
    have hfi : findIdx (txt.drop start) pat = none := by
      cases hfi : findIdx (txt.drop start) pat with
      | none => rfl
      | some v => rw [hfi] at h; cases h
    have hfls := (findIdx_spec pat (txt.drop start)).2 hfi (j - start)
    rw [List.drop_drop] at hfls
    have hj' : start + (j - start) = j := by omega
    rw [hj'] at hfls
    exact absurd hmj.2 (by simp [hfls])

/-- The running-minimum loop of `extract_block` over the candidate next
labels (`idx_end` starts at `acc` and shrinks to the nearest label hit). -/
def min_end (text : List Char) (idx_from : ℕ) : List (List Char) → ℕ → ℕ
  | [], acc => acc
  | lbl :: rest, acc =>
    min_end text idx_from rest
      (match pyFind text lbl idx_from with
       | some j => if j < acc then j else acc
       | none => acc)

/-- `extract_block` from `scrape_cells.py`: the slice of `text` from the
first occurrence of `start_label` up to (exclusively) the nearest occurrence
of any of `next_labels` found at or after the end of the start label, or up
to the end of text if none occurs. -/
def extract_block (text start_label : List Char)
    (next_labels : List (List Char)) : Option (List Char) :=
  match pyFind text start_label 0 with
  | none => none
  | some idx_start =>
    let idx_from := idx_start + start_label.length
    let idx_end := min_end text idx_from next_labels text.length
    some ((text.drop idx_start).take (idx_end - idx_start))

theorem min_end_spec (text : List Char) (idx_from : ℕ)
    (ls : List (List Char)) : ∀ acc : ℕ,
    min_end text idx_from ls acc ≤ acc ∧
    (min_end text idx_from ls acc = acc ∨
      ∃ l ∈ ls, pyFind text l idx_from = some (min_end text idx_from ls acc)) ∧
    (∀ l ∈ ls, ∀ j, pyFind text l idx_from = some j →
      min_end text idx_from ls acc ≤ j) := by
  induction ls with
  | nil =>
    intro acc
    exact ⟨Nat.le_refl _, Or.inl rfl, fun l hl => absurd hl (List.not_mem_nil l)⟩
  | cons lbl rest ih =>
    intro acc
    rcases hfind : pyFind text lbl idx_from with _ | j
    · have hred : min_end text idx_from (lbl :: rest) acc =
          min_end text idx_from rest acc := by
        simp [min_end, hfind]
      obtain ⟨ih1, ih2, ih3⟩ := ih acc
      rw [hred]
      refine ⟨ih1, ?_, ?_⟩
      · rcases ih2 with h | ⟨l, hl, hpf⟩
        · exact Or.inl h
        · exact Or.inr ⟨l, List.mem_cons_of_mem _ hl, hpf⟩
      · intro l hl j' hj'
        rcases List.mem_cons.mp hl with heq | hl'
        · subst heq; rw [hfind] at hj'; cases hj'
        · exact ih3 l hl' j' hj'
    · by_cases hlt : j < acc
      · have hred : min_end text idx_from (lbl :: rest) acc =
            min_end text idx_from rest j := by
          simp [min_end, hfind, hlt]
        obtain ⟨ih1, ih2, ih3⟩ := ih j
        rw [hred]
        refine ⟨Nat.le_trans ih1 (Nat.le_of_lt hlt), ?_, ?_⟩
        · rcases ih2 with h | ⟨l, hl, hpf⟩
          · exact Or.inr ⟨lbl, List.mem_cons_self _ _, by rw [hfind, h]⟩
          · exact Or.inr ⟨l, List.mem_cons_of_mem _ hl, hpf⟩
        · intro l hl j' hj'
          rcases List.mem_cons.mp hl with heq | hl'
          · subst heq
            rw [hfind] at hj'
            cases hj'
            exact ih1
          · exact ih3 l hl' j' hj'
      · have hred : min_end text idx_from (lbl :: rest) acc =
            min_end text idx_from rest acc := by
          simp [min_end, hfind, hlt]
        obtain ⟨ih1, ih2, ih3⟩ := ih acc
        rw [hred]
        refine ⟨ih1, ?_, ?_⟩
        · rcases ih2 with h | ⟨l, hl, hpf⟩
          · exact Or.inl h
          · exact Or.inr ⟨l, List.mem_cons_of_mem _ hl, hpf⟩
        · intro l hl j' hj'
          rcases List.mem_cons.mp hl with heq | hl'
          · subst heq
            rw [hfind] at hj'
            cases hj'
            omega
          · exact ih3 l hl' j' hj'

/-- The flat text of the segmentation example. -/
def c1text : List Char := "Capacity nominal 5 Ah Current continuous 10 A".toList

/-- **C1, counterexample.**  On a text containing
`"Capacity nominal 5 Ah Current continuous 10 A"`, segmenting with start
label `"Capacity"` and next labels `["Current"]` yields
`"Capacity nominal 5 Ah "` — the block starts at the start label itself
(label included), not at the index immediately after it, so it is not the
claimed `" nominal 5 Ah "`. -/
theorem extract_block_cex :
    extract_block c1text "Capacity".toList ["Current".toList] =
      some "Capacity nominal 5 Ah ".toList ∧
    extract_block c1text "Capacity".toList ["Current".toList] ≠
      some " nominal 5 Ah ".toList := by
  constructor <;> decide

/-- **C1, amended.**  For every flat text, start label and next-label list:
`extract_block` returns absent iff the start label does not occur; otherwise
it returns the substring of the text beginning at the *first occurrence of
the start label itself* (inclusive of the label, not after it) and ending
just before the smallest index at or after the search origin (the index
immediately after the start label) at which any of the next labels occurs,
extending to the end of the text when no next label occurs there. -/
theorem extract_block_spec (text s : List Char) (ls : List (List Char)) :
    (extract_block text s ls = none ↔ ∀ j, ¬ MatchesAt s text j) ∧
    (∀ i, MatchesAt s text i → (∀ j, j < i → ¬ MatchesAt s text j) →
      extract_block text s ls =
        some ((text.drop i).take
          (min_end text (i + s.length) ls text.length - i)) ∧
      i + s.length ≤ min_end text (i + s.length) ls text.length ∧
      min_end text (i + s.length) ls text.length ≤ text.length ∧
      (∀ l ∈ ls, ∀ j, i + s.length ≤ j →
        j < min_end text (i + s.length) ls text.length → ¬ MatchesAt l text j) ∧
      (min_end text (i + s.length) ls text.length = text.length ∨
        ∃ l ∈ ls, MatchesAt l text
          (min_end text (i + s.length) ls text.length))) := by
  constructor
  · constructor
    · intro hnone j
      rcases hpf : pyFind text s 0 with _ | i
      · exact pyFind_none hpf j (Nat.zero_le j)
      · exfalso
        simp only [extract_block, hpf] at hnone
        cases hnone
    · intro hall
      rcases hpf : pyFind text s 0 with _ | i
      · simp [extract_block, hpf]
      · exact absurd (pyFind_some hpf).2.1 (hall i)
  · intro i hmi hfirst
    have hpf : pyFind text s 0 = some i := by
      rcases hpf : pyFind text s 0 with _ | i'
      · exact absurd hmi (pyFind_none hpf i (Nat.zero_le i))
      · obtain ⟨_, hmi', hmin'⟩ := pyFind_some hpf
        have h1 : ¬ i < i' := fun hlt => (hmin' i (Nat.zero_le i) hlt) hmi
        have h2 : ¬ i' < i := fun hlt => (hfirst i' hlt) hmi'
        have : i = i' := by omega
        rw [this]
    have hlen : i + s.length ≤ text.length := by
      have h1 := leadsList_length hmi.2
      rw [List.length_drop] at h1
      have h2 := hmi.1
      omega
    obtain ⟨hle, hor, hmin⟩ :=
      min_end_spec text (i + s.length) ls text.length
    refine ⟨?_, ?_, hle, ?_, ?_⟩
    · simp only [extract_block, hpf]
    · rcases hor with heq | ⟨l, _, hpfl⟩
      · omega
      · exact (pyFind_some hpfl).1
    · intro l hl j hj1 hj2 hmj
      rcases hpfl : pyFind text l (i + s.length) with _ | j₀
      · exact pyFind_none hpfl j hj1 hmj
      · obtain ⟨_, _, hmin₀⟩ := pyFind_some hpfl
        have hj₀ : ¬ j < j₀ := fun hlt => (hmin₀ j hj1 hlt) hmj
        have hEj₀ := hmin l hl j₀ hpfl
        omega
    · rcases hor with heq | ⟨l, hl, hpfl⟩
      · exact Or.inl heq
      · exact Or.inr ⟨l, hl, (pyFind_some hpfl).2.1⟩

/-- **C1, witness.**  The amended theorem applied to the example text. -/
theorem extract_block_spec_witness :
    extract_block c1text "Capacity".toList ["Current".toList] =
      some ((c1text.drop 0).take
        (min_end c1text (0 + "Capacity".toList.length) ["Current".toList]
          c1text.length - 0)) :=
  ((extract_block_spec c1text "Capacity".toList ["Current".toList]).2 0
    (by decide) (by decide)).1

/-! ### Derived metrics (`parse_cell_page`, lines 303-336) -/

/-- One guarded division `if den and num: result = num / den` with Python
truthiness (`None` and `0.0` are falsy).  This is the shared shape of the
four guarded quotients of the derived-metrics stage. -/
def mean_div (den num : Option ℚ) : Option ℚ :=
  match den, num with
  | some d, some n => if d = 0 ∨ n = 0 then none else some (n / d)
  | _, _ => none

/-- The `r_eff_mOhm` computation: guarded by the truthiness of both mean
voltages and of the peak current, and by a strictly positive voltage
difference. -/
def r_eff_calc (mv10 mvp pc : Option ℚ) : Option ℚ :=
  match mv10, mvp, pc with
  | some v1, some v2, some p =>
    if v1 = 0 ∨ v2 = 0 ∨ p = 0 then none
    else if 0 < v1 - v2 then some (1000 * (v1 - v2) / p) else none
  | _, _, _ => none

/-- The derived-metrics stage of `parse_cell_page`: from the six primary
fields compute, in order, `mean_voltage_c10_V`, `mean_voltage_peak_V`,
`r_eff_mOhm`, `c_rate_continuous`, `c_rate_peak`. -/
def derivedMetrics (c10_cap c10_energy peak_power peak_current
    nominal_cap cont_current : Option ℚ) :
    Option ℚ × Option ℚ × Option ℚ × Option ℚ × Option ℚ :=
  let mean_v_c10 := mean_div c10_cap c10_energy
  let mean_v_peak := mean_div peak_current peak_power
  (mean_v_c10, mean_v_peak, r_eff_calc mean_v_c10 mean_v_peak peak_current,
    mean_div nominal_cap cont_current, mean_div nominal_cap peak_current)

theorem mean_div_eq_some {den num : Option ℚ} {v : ℚ} :
    mean_div den num = some v ↔
      ∃ d n, den = some d ∧ num = some n ∧ d ≠ 0 ∧ n ≠ 0 ∧ v = n / d := by
  constructor
  · intro h
    rcases den with _ | d <;> rcases num with _ | n <;>
      simp only [mean_div] at h
    · cases h
    · cases h
    · cases h
    · by_cases hz : d = 0 ∨ n = 0
      · rw [if_pos hz] at h; cases h
      · rw [if_neg hz] at h
        push_neg at hz
        cases h
        exact ⟨d, n, rfl, rfl, hz.1, hz.2, rfl⟩
  · rintro ⟨d, n, rfl, rfl, hd, hn, rfl⟩
    simp [mean_div, hd, hn]

theorem mean_div_some_ne_zero {den num : Option ℚ} {v : ℚ}
    (h : mean_div den num = some v) : v ≠ 0 := by
  rcases mean_div_eq_some.mp h with ⟨d, n, _, _, hd, hn, rfl⟩
  exact div_ne_zero hn hd

theorem mean_div_some_den {den num : Option ℚ} {v : ℚ}
    (h : mean_div den num = some v) : ∃ d, den = some d ∧ d ≠ 0 := by
  rcases mean_div_eq_some.mp h with ⟨d, n, hd, _, hdne, _, _⟩
  exact ⟨d, hd, hdne⟩

/-- **C3.**  `r_eff_mOhm` is present exactly when both derived mean-voltage
fields are present with a strictly positive difference, and its value is
`1000 * (meanVoltageAtC10 - meanVoltageAtPeak) / peakCurrent`; a zero or
negative difference yields absence, never a non-positive number. -/
theorem r_eff_spec (c10_cap c10_energy peak_power peak_current
    nominal_cap cont_current : Option ℚ) :
    ((∃ r, (derivedMetrics c10_cap c10_energy peak_power peak_current
        nominal_cap cont_current).2.2.1 = some r) ↔
      (∃ v1 v2, (derivedMetrics c10_cap c10_energy peak_power peak_current
          nominal_cap cont_current).1 = some v1 ∧
        (derivedMetrics c10_cap c10_energy peak_power peak_current
          nominal_cap cont_current).2.1 = some v2 ∧ 0 < v1 - v2)) ∧
    (∀ r, (derivedMetrics c10_cap c10_energy peak_power peak_current
        nominal_cap cont_current).2.2.1 = some r ↔
      ∃ v1 v2 p, (derivedMetrics c10_cap c10_energy peak_power peak_current
          nominal_cap cont_current).1 = some v1 ∧
        (derivedMetrics c10_cap c10_energy peak_power peak_current
          nominal_cap cont_current).2.1 = some v2 ∧
        peak_current = some p ∧ 0 < v1 - v2 ∧ r = 1000 * (v1 - v2) / p) := by
  have key : ∀ r, r_eff_calc (mean_div c10_cap c10_energy)
      (mean_div peak_current peak_power) peak_current = some r ↔
      ∃ v1 v2 p, mean_div c10_cap c10_energy = some v1 ∧
        mean_div peak_current peak_power = some v2 ∧
        peak_current = some p ∧ 0 < v1 - v2 ∧ r = 1000 * (v1 - v2) / p := by
    intro r
    constructor
    · intro h
      rcases hm1 : mean_div c10_cap c10_energy with _ | v1 <;>
        rcases hm2 : mean_div peak_current peak_power with _ | v2 <;>
        rcases hpc : peak_current with _ | p <;>
        rw [hm1, hm2, hpc] at h <;> simp only [r_eff_calc] at h
      · cases h
      · cases h
      · cases h
      · cases h
      · cases h
      · cases h
      · cases h
      · by_cases hz : v1 = 0 ∨ v2 = 0 ∨ p = 0
        · rw [if_pos hz] at h; cases h
        · rw [if_neg hz] at h
          by_cases hpos : 0 < v1 - v2
          · rw [if_pos hpos] at h
            cases h
            exact ⟨v1, v2, p, rfl, rfl, rfl, hpos, rfl⟩
          · rw [if_neg hpos] at h; cases h
    · rintro ⟨v1, v2, p, hm1, hm2, rfl, hpos, rfl⟩
      have hv1 : v1 ≠ 0 := mean_div_some_ne_zero hm1
      have hv2 : v2 ≠ 0 := mean_div_some_ne_zero hm2
      obtain ⟨p', hp', hpne'⟩ := mean_div_some_den hm2
      have hpp : p ≠ 0 := by
        rw [Option.some.injEq] at hp'
        rwa [← hp'] at hpne'
      rw [hm1, hm2]
      simp only [r_eff_calc]
      rw [if_neg (by push_neg; exact ⟨hv1, hv2, hpp⟩), if_pos hpos]
  constructor
  · constructor
    · rintro ⟨r, hr⟩
      rcases (key r).mp hr with ⟨v1, v2, p, h1, h2, _, hpos, _⟩
      exact ⟨v1, v2, h1, h2, hpos⟩
    · rintro ⟨v1, v2, h1, h2, hpos⟩
      obtain ⟨p, hp, hpne⟩ := mean_div_some_den h2
      exact ⟨1000 * (v1 - v2) / p,
        (key _).mpr ⟨v1, v2, p, h1, h2, hp, hpos, rfl⟩⟩
  · exact key

/-- **C4, counterexample.**  With nominal capacity 5 and a *present but
zero* continuous current, the code's truthiness guard
(`if nominal_cap and cont_current`) fails, so `c_rate_continuous` is absent
— not `0.0` as the claim asserts. -/
theorem c_rate_cex :
    (derivedMetrics none none none none (some 5) (some 0)).2.2.2.1 = none ∧
    (derivedMetrics none none none none (some 5) (some 0)).2.2.2.1 ≠
      some 0 := by
  constructor <;> decide

/-- **C4, amended.**  `c_rate_continuous = continuousCurrent /
nominalCapacity` and `c_rate_peak = peakCurrent / nominalCapacity`, each
present exactly when both of its operands are present *and nonzero* (a
present operand whose value is `0.0` is falsy under the code's guard and
yields absence); otherwise the derived field is absent. -/
theorem c_rate_spec (c10_cap c10_energy peak_power peak_current
    nominal_cap cont_current : Option ℚ) :
    (∀ v, (derivedMetrics c10_cap c10_energy peak_power peak_current
        nominal_cap cont_current).2.2.2.1 = some v ↔
      ∃ n c, nominal_cap = some n ∧ cont_current = some c ∧
        n ≠ 0 ∧ c ≠ 0 ∧ v = c / n) ∧
    (∀ v, (derivedMetrics c10_cap c10_energy peak_power peak_current
        nominal_cap cont_current).2.2.2.2 = some v ↔
      ∃ n c, nominal_cap = some n ∧ peak_current = some c ∧
        n ≠ 0 ∧ c ≠ 0 ∧ v = c / n) :=
  ⟨fun _ => mean_div_eq_some, fun _ => mean_div_eq_some⟩

/-! ### The document model (BeautifulSoup node tree) -/

/-- A parsed HTML document: text nodes (`NavigableString`) and elements
with a tag and an ordered child list.  A document is rooted at an element
(BeautifulSoup's `[document]`). -/
inductive Node where
  | text (s : List Char)
  | elem (tag : List Char) (children : List Node)

mutual

/-- All descendant text-node contents of a node, in document order
(the strings BeautifulSoup's `get_text` concatenates). -/
def nodeStrings : Node → List (List Char)
  | Node.text s => [s]
  | Node.elem _ cs => nodeStringsList cs

def nodeStringsList : List Node → List (List Char)
  | [] => []
  | n :: ns => nodeStrings n ++ nodeStringsList ns

end

mutual

/-- The (text-node content, containing element) pairs for all text nodes of
the document in document order — the iteration order of
`soup.find(string=...)` together with the `.parent` of each string. -/
def stringsWithParent : Node → List (List Char × Node)
  | Node.text _ => []
  | Node.elem t cs => swpChildren (Node.elem t cs) cs

def swpChildren (parent : Node) : List Node → List (List Char × Node)
  | [] => []
  | Node.text s :: ns => (s, parent) :: swpChildren parent ns
  | Node.elem t cs :: ns =>
      stringsWithParent (Node.elem t cs) ++ swpChildren parent ns

end

/-- `separator.join(ws)`. -/
def joinSep (sep : List Char) : List (List Char) → List Char
  | [] => []
  | [w] => w
  | w :: ws => w ++ sep ++ joinSep sep ws

/-- BeautifulSoup `node.get_text(sep, strip=True)`: each descendant string
stripped, empties dropped, the rest joined with the separator. -/
def get_text_strip (sep : List Char) (n : Node) : List Char :=
  joinSep sep (((nodeStrings n).map pstrip).filter (fun s => !s.isEmpty))

/-- Python `full.replace(pat, "", 1)`: remove the first occurrence. -/
def replaceFirst (l pat : List Char) : List Char :=
  match findIdx l pat with
  | none => l
  | some i => l.take i ++ l.drop (i + pat.length)

/-- `extract_label_value` from `scrape_cells.py`:
`soup.find(string=re.compile(rf"^{re.escape(label)}"))` selects the first
text node (document order) whose *raw* content begins with the label (the
regex is anchored at the start of the node string and searched without
trimming); then the parent's `get_text(" ", strip=True)` has the first
occurrence of the label removed and is stripped; an empty remainder is
returned as absent (`value or None`). -/
def extract_label_value (soup : Node) (label : List Char) :
    Option (List Char) :=
  match (stringsWithParent soup).find? (fun x => leadsList label x.1) with
  | none => none
  | some x =>
      let full := get_text_strip [' '] x.2
      let value := pstrip (replaceFirst full label)
      if value.isEmpty then none else some value

/-- Modelled from the claim's words (for comparison with the code): the
same algorithm, but selecting the first text node whose *trimmed* content
begins with the label prefix. -/
def extract_label_value_claim (soup : Node) (label : List Char) :
    Option (List Char) :=
  match (stringsWithParent soup).find? (fun x => leadsList label (pstrip x.1)) with
  | none => none
  | some x =>
      let full := get_text_strip [' '] x.2
      let value := pstrip (replaceFirst full label)
      if value.isEmpty then none else some value

/-- The counterexample document: one element whose only text node carries
leading whitespace before the label. -/
def c6doc : Node :=
  Node.elem "div".toList [Node.text " Cell Origin sourced by Batemo".toList]

/-- **C6, counterexample.**  The document's only text node has trimmed
content beginning with `"Cell Origin"`, so under the claim the extractor
must return the remainder `"sourced by Batemo"`; but the code matches the
*untrimmed* node content against the anchored regex, finds no node, and
returns absent. -/
theorem extract_label_value_cex :
    leadsList "Cell Origin".toList
      (pstrip " Cell Origin sourced by Batemo".toList) = true ∧
    extract_label_value_claim c6doc "Cell Origin".toList =
      some "sourced by Batemo".toList ∧
    extract_label_value c6doc "Cell Origin".toList = none := by
  refine ⟨by decide, by decide, by decide⟩

theorem find?_at_first {α : Type} (p : α → Bool) (l : List α) :
    ∀ (k : ℕ) (hk : k < l.length), p (l.get ⟨k, hk⟩) = true →
      (∀ j (hj : j < k), p (l.get ⟨j, Nat.lt_trans hj hk⟩) = false) →
      l.find? p = some (l.get ⟨k, hk⟩) := by
  induction l with
  | nil => intro k hk; cases hk
  | cons a t ih =>
    intro k hk hp hbefore
    cases k with
    | zero => simpa using List.find?_cons_of_pos t (by simpa using hp)
    | succ k' =>
      have ha : p a = false := by
        simpa using hbefore 0 (Nat.succ_pos k')
      rw [List.find?_cons_of_neg t (by simp [ha])]
      have hk' : k' < t.length := Nat.lt_of_succ_lt_succ hk
      have := ih k' hk' (by simpa using hp) (fun j hj => by
        simpa using hbefore (j + 1) (Nat.succ_lt_succ hj))
      simpa using this

/-- **C6, amended.**  For every document model and label prefix,
`extract_label_value` selects the first text node in document order whose
*raw (untrimmed)* content begins with the label prefix (exact,
case-sensitive); if no such node exists it returns absent; otherwise it
takes the containing element's full rendered text (descendant strings
stripped and space-joined), removes the first occurrence of the label
prefix, trims, and returns absent if the remainder is empty, else the
remainder. -/
theorem extract_label_value_spec (doc : Node) (label : List Char) :
    ((∀ x ∈ stringsWithParent doc, leadsList label x.1 = false) →
      extract_label_value doc label = none) ∧
    (∀ (k : ℕ) (hk : k < (stringsWithParent doc).length),
      leadsList label ((stringsWithParent doc).get ⟨k, hk⟩).1 = true →
      (∀ j (hj : j < k),
        leadsList label
          ((stringsWithParent doc).get ⟨j, Nat.lt_trans hj hk⟩).1 = false) →
      extract_label_value doc label =
        (let full :=
          get_text_strip [' '] ((stringsWithParent doc).get ⟨k, hk⟩).2
         let value := pstrip (replaceFirst full label)
         if value.isEmpty then none else some value)) := by
  constructor
  · intro hall
    have hnone : (stringsWithParent doc).find? (fun x => leadsList label x.1)
        = none :=
      List.find?_eq_none.mpr (fun x hx => by simp [hall x hx])
    simp [extract_label_value, hnone]
  · intro k hk hp hbefore
    have hfind := find?_at_first (fun x => leadsList label x.1)
      (stringsWithParent doc) k hk hp hbefore
    simp [extract_label_value, hfind]

/-- **C6, witness.**  The amended theorem applied to a document whose text
node carries no leading whitespace. -/
theorem extract_label_value_spec_witness :
    extract_label_value
      (Node.elem "div".toList
        [Node.text "Cell Origin sourced by Batemo".toList])
      "Cell Origin".toList =
    (let full := get_text_strip [' ']
        ((stringsWithParent (Node.elem "div".toList
          [Node.text "Cell Origin sourced by Batemo".toList])).get
            ⟨0, by decide⟩).2
     let value := pstrip (replaceFirst full "Cell Origin".toList)
     if value.isEmpty then none else some value) :=
  (extract_label_value_spec
    (Node.elem "div".toList
      [Node.text "Cell Origin sourced by Batemo".toList])
    "Cell Origin".toList).2 0 (by decide) (by decide)
    (fun j hj => absurd hj (Nat.not_lt_zero j))

/-! ### A small backtracking pattern engine

The regular expressions of `scrape_cells.py` are embedded as backtracking
patterns: a pattern maps an input to the list of all `(result, rest)` ways
of matching a prefix of it, ordered the way Python's regex engine tries
them (greedy/preferred alternatives first).  `psearch` then mirrors
`re.search`: the leftmost position with a match wins and the first
alternative there provides the groups. -/

def Pat (α : Type) : Type := List Char → List (α × List Char)

def ppure {α : Type} (a : α) : Pat α := fun l => [(a, l)]

def pbind {α β : Type} (m : Pat α) (f : α → Pat β) : Pat β :=
  fun l => (m l).flatMap (fun x => f x.1 x.2)

/-- A single character of a class. -/
def pchar (p : Char → Bool) : Pat Char := fun l =>
  match l with
  | [] => []
  | c :: r => if p c then [(c, r)] else []

/-- Greedy `X*` over a one-character class: all run lengths, longest first. -/
def pstar (p : Char → Bool) : Pat (List Char) := fun l =>
  let n := (l.takeWhile p).length
  (List.range (n + 1)).map (fun k => (l.take (n - k), l.drop (n - k)))

/-- Greedy `X+` over a one-character class: lengths `n, …, 1`. -/
def pplus (p : Char → Bool) : Pat (List Char) := fun l =>
  let n := (l.takeWhile p).length
  (List.range n).map (fun k => (l.take (n - k), l.drop (n - k)))

/-- Greedy `X?` over a one-character class. -/
def popt (p : Char → Bool) : Pat (Option Char) := fun l =>
  match l with
  | [] => [(none, [])]
  | c :: r => if p c then [(some c, r), (none, c :: r)] else [(none, c :: r)]

/-- Greedy `(...)?` over a composite sub-pattern. -/
def poptP {α : Type} (m : Pat α) : Pat (Option α) := fun l =>
  (m l).map (fun x => (some x.1, x.2)) ++ [(none, l)]

/-- A literal string. -/
def plit (s : List Char) : Pat Unit := fun l =>
  if leadsList s l then [((), l.drop s.length)] else []

/-- Discard a sub-pattern's result. -/
def pignore {α : Type} (m : Pat α) : Pat Unit := pbind m (fun _ => ppure ())

/-- Sequencing of unit patterns. -/
def pthen (a b : Pat Unit) : Pat Unit := pbind a (fun _ => b)

/-- `re.search`: try each start position from the left; at the first
position where the pattern matches, return the groups of the preferred
alternative. -/
def psearch {α : Type} (pat : Pat α) : List Char → Option α
  | [] => ((pat []).head?).map (fun x => x.1)
  | c :: t =>
    match ((pat (c :: t)).head?).map (fun x => x.1) with
    | some a => some a
    | none => psearch pat t

/-- The `[.…]` separator class. -/
def isDotChar (c : Char) : Bool := c = '.' || c = '…'

/-- Python `\w` (ASCII model). -/
def isWordChar (c : Char) : Bool := c.isAlphanum || c = '_'

/-- The `[-0-9.,]` class of `parse_range_simple`. -/
def isRangeNumChar (c : Char) : Bool :=
  c.isDigit || c = '-' || c = '.' || c = ','

/-- The `[0-9.]` class of the model-version pattern. -/
def isDigitDot (c : Char) : Bool := c.isDigit || c = '.'

theorem mem_pbind {α β : Type} {m : Pat α} {f : α → Pat β} {b : β}
    {r l : List Char} :
    (b, r) ∈ pbind m f l ↔ ∃ a r', (a, r') ∈ m l ∧ (b, r) ∈ f a r' := by
  simp [pbind, List.mem_flatMap, Prod.exists]

theorem mem_ppure {α : Type} {a b : α} {l r : List Char} :
    (b, r) ∈ ppure a l ↔ b = a ∧ r = l := by
  simp [ppure]

/-- The signed numeral group `(-?\d+\.?\d*)` of `parse_current_range`. -/
def pnum : Pat (List Char) :=
  pbind (popt (fun c => c = '-')) fun sgn =>
  pbind (pplus Char.isDigit) fun ds =>
  pbind (popt (fun c => c = '.')) fun dot =>
  pbind (pstar Char.isDigit) fun fs =>
  ppure ((sgn.elim [] (fun c => [c])) ++ ds ++ (dot.elim [] (fun c => [c])) ++ fs)

/-- The unsigned numeral group `([0-9]+(?:\.[0-9]+)?)` used by the
block-field patterns. -/
def pnumU : Pat (List Char) :=
  pbind (pplus Char.isDigit) fun ds =>
  pbind (poptP (pbind (pchar (fun c => c = '.')) fun _ =>
    pbind (pplus Char.isDigit) fun fs => ppure fs)) fun fr =>
  ppure (ds ++ (fr.elim [] (fun fs => '.' :: fs)))

/-- The whitespace run `\s*` as a unit pattern. -/
def pws : Pat Unit := pignore (pstar isPySpace)

/-- The middle of the current pair: `\s*A\s*discharge\s*[.…]+\s*`. -/
def midCurrents : Pat Unit :=
  pthen pws (pthen (plit "A".toList) (pthen pws (pthen (plit "discharge".toList)
    (pthen pws (pthen (pignore (pplus isDotChar)) pws)))))

/-- The tail of the current pair: `\s*A\s*charge`. -/
def tailCurrents : Pat Unit :=
  pthen pws (pthen (plit "A".toList) (pthen pws (plit "charge".toList)))

/-- The current-pair pattern
`(-?\d+\.?\d*)\s*A\s*discharge\s*[.…]+\s*(\-?\d+\.?\d*)\s*A\s*charge`. -/
def patCurrents : Pat (List Char × List Char) :=
  pbind pnum fun g1 =>
  pbind midCurrents fun _ =>
  pbind pnum fun g2 =>
  pbind tailCurrents fun _ =>
  ppure (g1, g2)

/-- The head of the C-rate pattern: `\(\s*`. -/
def headCRates : Pat Unit := pthen (plit "(".toList) pws

/-- The middle of the C-rate pattern: `\s*C\s*[.…]+\s*`. -/
def midCRates : Pat Unit :=
  pthen pws (pthen (plit "C".toList) (pthen pws
    (pthen (pignore (pplus isDotChar)) pws)))

/-- The tail of the C-rate pattern: `\s*C\s*\)`. -/
def tailCRates : Pat Unit :=
  pthen pws (pthen (plit "C".toList) (pthen pws (plit ")".toList)))

/-- The parenthesised C-rate pattern
`\(\s*(-?\d+\.?\d*)\s*C\s*[.…]+\s*(\-?\d+\.?\d*)\s*C\s*\)`. -/
def patCRates : Pat (List Char × List Char) :=
  pbind headCRates fun _ =>
  pbind pnum fun g1 =>
  pbind midCRates fun _ =>
  pbind pnum fun g2 =>
  pbind tailCRates fun _ =>
  ppure (g1, g2)

/-- `parse_current_range` from `scrape_cells.py`: the two sub-patterns are
searched independently; each half of the result is taken from its own
match (or absent when that sub-pattern finds nothing). -/
def parse_current_range (text : List Char) :
    Option ℚ × Option ℚ × Option ℚ × Option ℚ :=
  let m_i := psearch patCurrents text
  let i_dis_min := match m_i with
    | some g => to_float (some g.1)
    | none => none
  let i_ch_max := match m_i with
    | some g => to_float (some g.2)
    | none => none
  let m_c := psearch patCRates text
  let c_min := match m_c with
    | some g => to_float (some g.1)
    | none => none
  let c_max := match m_c with
    | some g => to_float (some g.2)
    | none => none
  (i_dis_min, i_ch_max, c_min, c_max)

/-! ### Correctness lemmas for the numeral group of `parse_current_range` -/

theorem takeWhile_length_le (p : Char → Bool) :
    ∀ l : List Char, (l.takeWhile p).length ≤ l.length := by
  intro l
  induction l with
  | nil => simp
  | cons a t ih =>
    by_cases ha : p a = true
    · rw [List.takeWhile_cons_of_pos ha]
      simpa using ih
    · rw [List.takeWhile_cons_of_neg (by simp [ha])]
      simp

theorem take_sat {p : Char → Bool} :
    ∀ (l : List Char) (m : ℕ), m ≤ (l.takeWhile p).length →
      ∀ c ∈ l.take m, p c = true := by
  intro l
  induction l with
  | nil => intro m _ c hc; simp at hc
  | cons a t ih =>
    intro m hm c hc
    by_cases ha : p a = true
    · rw [List.takeWhile_cons_of_pos ha] at hm
      cases m with
      | zero => simp at hc
      | succ m' =>
        rw [List.take_succ_cons] at hc
        rcases List.mem_cons.mp hc with rfl | hc'
        · exact ha
        · exact ih m' (by simpa using hm) c hc'
    · rw [List.takeWhile_cons_of_neg (by simp [ha])] at hm
      have : m = 0 := by simpa using hm
      subst this
      simp at hc

theorem pplus_mem {p : Char → Bool} {l g r : List Char}
    (h : (g, r) ∈ pplus p l) : g ≠ [] ∧ ∀ c ∈ g, p c = true := by
  simp only [pplus, List.mem_map, List.mem_range] at h
  rcases h with ⟨k, hk, heq⟩
  have hg : g = l.take ((l.takeWhile p).length - k) := by
    have := congrArg Prod.fst heq; simpa using this.symm
  subst hg
  constructor
  · have h1 : 1 ≤ (l.takeWhile p).length - k := by omega
    have h2 : (l.takeWhile p).length ≤ l.length := takeWhile_length_le p l
    intro hnil
    have := congrArg List.length hnil
    rw [List.length_take] at this
    simp only [List.length_nil] at this
    omega
  · exact take_sat l _ (by omega)

theorem pstar_mem {p : Char → Bool} {l g r : List Char}
    (h : (g, r) ∈ pstar p l) : ∀ c ∈ g, p c = true := by
  simp only [pstar, List.mem_map, List.mem_range] at h
  rcases h with ⟨k, hk, heq⟩
  have hg : g = l.take ((l.takeWhile p).length - k) := by
    have := congrArg Prod.fst heq; simpa using this.symm
  subst hg
  exact take_sat l _ (by omega)

theorem popt_mem {p : Char → Bool} {l r : List Char} {x : Option Char}
    (h : (x, r) ∈ popt p l) : x = none ∨ ∃ c, x = some c ∧ p c = true := by
  cases l with
  | nil =>
    simp only [popt, List.mem_singleton, Prod.mk.injEq] at h
    exact Or.inl h.1
  | cons c t =>
    by_cases hc : p c = true
    · simp only [popt, hc, if_true] at h
      rcases List.mem_cons.mp h with heq | heq
      · rcases Prod.mk.injEq .. ▸ heq with ⟨h1, _⟩
        exact Or.inr ⟨c, by simp_all, hc⟩
      · rcases List.mem_singleton.mp heq with heq'
        exact Or.inl (by simpa using congrArg Prod.fst heq')
    · simp only [popt, hc, if_false] at h
      rcases List.mem_singleton.mp h with heq'
      exact Or.inl (by simpa using congrArg Prod.fst heq')

theorem pnum_mem {l g r : List Char} (h : (g, r) ∈ pnum l) :
    ∃ sgn ds dot fs : List Char,
      (sgn = [] ∨ sgn = ['-']) ∧ ds ≠ [] ∧
      (∀ c ∈ ds, Char.isDigit c = true) ∧
      (dot = [] ∨ dot = ['.']) ∧ (∀ c ∈ fs, Char.isDigit c = true) ∧
      g = sgn ++ ds ++ dot ++ fs := by
  rcases mem_pbind.mp h with ⟨sgnO, r1, hsgn, h1⟩
  rcases mem_pbind.mp h1 with ⟨ds, r2, hds, h2⟩
  rcases mem_pbind.mp h2 with ⟨dotO, r3, hdot, h3⟩
  rcases mem_pbind.mp h3 with ⟨fs, r4, hfs, h4⟩
  rcases mem_ppure.mp h4 with ⟨hg, _⟩
  obtain ⟨hne, hsat⟩ := pplus_mem hds
  have hfsat := pstar_mem hfs
  refine ⟨sgnO.elim [] (fun c => [c]), ds, dotO.elim [] (fun c => [c]), fs,
    ?_, hne, hsat, ?_, hfsat, hg⟩
  · rcases popt_mem hsgn with rfl | ⟨c, rfl, hc⟩
    · exact Or.inl rfl
    · have : c = '-' := by simpa using hc
      subst this
      exact Or.inr rfl
  · rcases popt_mem hdot with rfl | ⟨c, rfl, hc⟩
    · exact Or.inl rfl
    · have : c = '.' := by simpa using hc
      subst this
      exact Or.inr rfl

theorem dropWhile_all_false {p : Char → Bool} {l : List Char}
    (h : ∀ c ∈ l, p c = false) : l.dropWhile p = l := by
  cases l with
  | nil => rfl
  | cons a t => simp [List.dropWhile_cons, h a (List.mem_cons_self a t)]

theorem pstrip_eq_self {l : List Char}
    (h : ∀ c ∈ l, isPySpace c = false) : pstrip l = l := by
  unfold pstrip
  rw [dropWhile_all_false h,
    dropWhile_all_false (fun c hc => h c (List.mem_reverse.mp hc)),
    List.reverse_reverse]

theorem map_eq_self {f : Char → Char} {l : List Char}
    (h : ∀ c ∈ l, f c = c) : l.map f = l := by
  induction l with
  | nil => rfl
  | cons a t ih =>
    rw [List.map_cons, h a (List.mem_cons_self a t),
      ih (fun c hc => h c (List.mem_cons_of_mem a hc))]

theorem takeWhile_append_stop {p : Char → Bool} {xs : List Char}
    (hxs : ∀ c ∈ xs, p c = true) :
    ∀ ys : List Char, (xs ++ ys).takeWhile p = xs ++ ys.takeWhile p := by
  induction xs with
  | nil => intro ys; simp
  | cons a t ih =>
    intro ys
    rw [List.cons_append,
      List.takeWhile_cons_of_pos (hxs a (List.mem_cons_self a t)),
      ih (fun c hc => hxs c (List.mem_cons_of_mem a hc)), List.cons_append]

theorem dropWhile_append_skip {p : Char → Bool} {xs : List Char}
    (hxs : ∀ c ∈ xs, p c = true) :
    ∀ ys : List Char, (xs ++ ys).dropWhile p = ys.dropWhile p := by
  induction xs with
  | nil => intro ys; simp
  | cons a t ih =>
    intro ys
    rw [List.cons_append,
      List.dropWhile_cons_of_pos (hxs a (List.mem_cons_self a t)),
      ih (fun c hc => hxs c (List.mem_cons_of_mem a hc))]

theorem takeWhile_all_true {p : Char → Bool} {l : List Char}
    (h : ∀ c ∈ l, p c = true) : l.takeWhile p = l := by
  induction l with
  | nil => rfl
  | cons a t ih =>
    rw [List.takeWhile_cons_of_pos (h a (List.mem_cons_self a t)),
      ih (fun c hc => h c (List.mem_cons_of_mem a hc))]

theorem dropWhile_all_true {p : Char → Bool} {l : List Char}
    (h : ∀ c ∈ l, p c = true) : l.dropWhile p = [] := by
  induction l with
  | nil => rfl
  | cons a t ih =>
    rw [List.dropWhile_cons_of_pos (h a (List.mem_cons_self a t)),
      ih (fun c hc => h c (List.mem_cons_of_mem a hc))]

theorem digit_not_space {c : Char} (h : Char.isDigit c = true) :
    isPySpace c = false := by
  by_contra hcon
  have hsp : isPySpace c = true := by
    cases hx : isPySpace c
    · exact absurd hx hcon
    · rfl
  simp only [isPySpace, Bool.or_eq_true, decide_eq_true_eq] at hsp
  rcases hsp with ((((h1 | h1) | h1) | h1) | h1) | h1 <;>
    (subst h1; exact absurd h (by decide))

theorem digit_not_comma {c : Char} (h : Char.isDigit c = true) :
    commaToDot c = c := by
  have hne : ¬ c = ',' := by
    intro hc
    rw [hc] at h
    exact absurd h (by decide)
  simp [commaToDot, hne]

/-- Every numeral token captured by `pnum` parses: `to_float` of the
captured group is always present. -/
theorem to_float_token_isSome {sgn ds dot fs : List Char}
    (hsgn : sgn = [] ∨ sgn = ['-']) (hds : ds ≠ [])
    (hdsd : ∀ c ∈ ds, Char.isDigit c = true)
    (hdot : dot = [] ∨ dot = ['.'])
    (hfsd : ∀ c ∈ fs, Char.isDigit c = true) :
    (to_float (some (sgn ++ ds ++ dot ++ fs))).isSome = true := by
  have hall : ∀ c ∈ sgn ++ ds ++ dot ++ fs,
      isPySpace c = false ∧ commaToDot c = c := by
    intro c hc
    simp only [List.append_assoc, List.mem_append] at hc
    rcases hc with hc | hc | hc | hc
    · rcases hsgn with rfl | rfl
      · simp at hc
      · rw [List.mem_singleton.mp hc]
        exact ⟨by decide, by decide⟩
    · exact ⟨digit_not_space (hdsd c hc), digit_not_comma (hdsd c hc)⟩
    · rcases hdot with rfl | rfl
      · simp at hc
      · rw [List.mem_singleton.mp hc]
        exact ⟨by decide, by decide⟩
    · exact ⟨digit_not_space (hfsd c hc), digit_not_comma (hfsd c hc)⟩
  have hstrip : pstrip (sgn ++ ds ++ dot ++ fs) = sgn ++ ds ++ dot ++ fs :=
    pstrip_eq_self (fun c hc => (hall c hc).1)
  have hmap : (sgn ++ ds ++ dot ++ fs).map commaToDot =
      sgn ++ ds ++ dot ++ fs :=
    map_eq_self (fun c hc => (hall c hc).2)
  obtain ⟨d, ds', rfl⟩ := List.exists_cons_of_ne_nil hds
  have hd : Char.isDigit d = true := hdsd d (List.mem_cons_self _ _)
  have hds' : ∀ c ∈ ds', Char.isDigit c = true :=
    fun c hc => hdsd c (List.mem_cons_of_mem _ hc)
  have hne1 : ¬ d = '+' := by
    intro hq; rw [hq] at hd; exact absurd hd (by decide)
  have hne2 : ¬ d = '-' := by
    intro hq; rw [hq] at hd; exact absurd hd (by decide)
  rcases hdot with rfl | rfl
  · have hdig : ∀ c ∈ d :: (ds' ++ fs), Char.isDigit c = true := by
      intro c hc
      rcases List.mem_cons.mp hc with rfl | hc'
      · exact hd
      · rcases List.mem_append.mp hc' with h' | h'
        · exact hds' c h'
        · exact hfsd c h'
    have hip : (d :: (ds' ++ fs)).takeWhile Char.isDigit =
        d :: (ds' ++ fs) := takeWhile_all_true hdig
    have hr2 : (d :: (ds' ++ fs)).dropWhile Char.isDigit = [] :=
      dropWhile_all_true hdig
    rcases hsgn with rfl | rfl
    · simp only [List.nil_append, List.append_nil, List.cons_append,
        List.append_assoc] at hstrip hmap ⊢
      simp only [to_float, List.isEmpty_cons, hstrip, hmap]
      simp [pyFloat, hne1, hne2, hip, hr2]
    · simp only [List.nil_append, List.append_nil, List.cons_append,
        List.append_assoc, List.singleton_append] at hstrip hmap ⊢
      simp only [to_float, List.isEmpty_cons, hstrip, hmap]
      simp [pyFloat, hip, hr2]
  · have hip : (d :: (ds' ++ ('.' :: fs))).takeWhile Char.isDigit =
        d :: ds' := by
      rw [List.takeWhile_cons_of_pos hd, takeWhile_append_stop hds',
        List.takeWhile_cons_of_neg (by decide), List.append_nil]
    have hr2 : (d :: (ds' ++ ('.' :: fs))).dropWhile Char.isDigit =
        '.' :: fs := by
      rw [List.dropWhile_cons_of_pos hd, dropWhile_append_skip hds',
        List.dropWhile_cons_of_neg (by decide)]
    have hfp : fs.takeWhile Char.isDigit = fs := takeWhile_all_true hfsd
    have hfr : fs.dropWhile Char.isDigit = [] := dropWhile_all_true hfsd
    rcases hsgn with rfl | rfl
    · simp only [List.nil_append, List.cons_append, List.append_assoc,
        List.singleton_append] at hstrip hmap ⊢
      simp only [to_float, List.isEmpty_cons, hstrip, hmap]
      simp [pyFloat, hne1, hne2, hip, hr2, hfp, hfr]
    · simp only [List.nil_append, List.cons_append, List.append_assoc,
        List.singleton_append] at hstrip hmap ⊢
      simp only [to_float, List.isEmpty_cons, hstrip, hmap]
      simp [pyFloat, hip, hr2, hfp, hfr]

theorem pnum_to_float {l g r : List Char} (h : (g, r) ∈ pnum l) :
    (to_float (some g)).isSome = true := by
  rcases pnum_mem h with ⟨sgn, ds, dot, fs, h1, h2, h3, h4, h5, rfl⟩
  exact to_float_token_isSome h1 h2 h3 h4 h5

theorem psearch_mem {α : Type} {pat : Pat α} :
    ∀ {l : List Char} {a : α}, psearch pat l = some a →
      ∃ l' r, (a, r) ∈ pat l' := by
  intro l
  induction l with
  | nil =>
    intro a h
    simp only [psearch] at h
    rcases Option.map_eq_some'.mp h with ⟨x, hx, rfl⟩
    rcases List.head?_eq_some_iff.mp hx with ⟨ys, hys⟩
    exact ⟨[], x.2, by rw [hys]; exact List.mem_cons_self _ _⟩
  | cons c t ih =>
    intro a h
    simp only [psearch] at h
    rcases hm : ((pat (c :: t)).head?).map (fun x => x.1) with _ | b
    · rw [hm] at h
      exact ih h
    · rw [hm] at h
      cases h
      rcases Option.map_eq_some'.mp hm with ⟨x, hx, rfl⟩
      rcases List.head?_eq_some_iff.mp hx with ⟨ys, hys⟩
      exact ⟨c :: t, x.2, by rw [hys]; exact List.mem_cons_self _ _⟩

theorem patCurrents_mem {l : List Char} {g : List Char × List Char}
    {r : List Char} (h : (g, r) ∈ patCurrents l) :
    (∃ l1 r1, (g.1, r1) ∈ pnum l1) ∧ (∃ l2 r2, (g.2, r2) ∈ pnum l2) := by
  rcases mem_pbind.mp h with ⟨g1, r1, h1, h2⟩
  rcases mem_pbind.mp h2 with ⟨u, r2, hm, h3⟩
  rcases mem_pbind.mp h3 with ⟨g2, r3, h4, h5⟩
  rcases mem_pbind.mp h5 with ⟨u2, r4, ht, h6⟩
  rcases mem_ppure.mp h6 with ⟨hg, _⟩
  subst hg
  exact ⟨⟨l, r1, h1⟩, ⟨r2, r3, h4⟩⟩

theorem patCRates_mem {l : List Char} {g : List Char × List Char}
    {r : List Char} (h : (g, r) ∈ patCRates l) :
    (∃ l1 r1, (g.1, r1) ∈ pnum l1) ∧ (∃ l2 r2, (g.2, r2) ∈ pnum l2) := by
  rcases mem_pbind.mp h with ⟨u0, r0, h0, h1'⟩
  rcases mem_pbind.mp h1' with ⟨g1, r1, h1, h2⟩
  rcases mem_pbind.mp h2 with ⟨u, r2, hm, h3⟩
  rcases mem_pbind.mp h3 with ⟨g2, r3, h4, h5⟩
  rcases mem_pbind.mp h5 with ⟨u2, r4, ht, h6⟩
  rcases mem_ppure.mp h6 with ⟨hg, _⟩
  subst hg
  exact ⟨⟨r0, r1, h1⟩, ⟨r2, r3, h4⟩⟩

/-- **C7.**  `parse_current_range` returns four optional numbers; the
current pair and the parenthesised C-rate pair come from two independent
sub-patterns, so each half is absent exactly when its own sub-pattern fails
to match, and one half can succeed while the other fails (second and third
concrete examples).  On
`"-90 A discharge … 12 A charge (-30C … 4C)"` the result is
`(-90.0, 12.0, -30.0, 4.0)`. -/
theorem parse_current_range_spec :
    (∀ text : List Char,
      ((parse_current_range text).1 = none ↔
        psearch patCurrents text = none) ∧
      ((parse_current_range text).2.1 = none ↔
        psearch patCurrents text = none) ∧
      ((parse_current_range text).2.2.1 = none ↔
        psearch patCRates text = none) ∧
      ((parse_current_range text).2.2.2 = none ↔
        psearch patCRates text = none)) ∧
    parse_current_range "-90 A discharge … 12 A charge (-30C … 4C)".toList =
      (some (-90), some 12, some (-30), some 4) ∧
    parse_current_range "-90 A discharge … 12 A charge".toList =
      (some (-90), some 12, none, none) ∧
    parse_current_range "(-30C … 4C)".toList =
      (none, none, some (-30), some 4) := by
  refine ⟨?_, by decide, by decide, by decide⟩
  intro text
  have hCur : ∀ g : List Char × List Char,
      psearch patCurrents text = some g →
      to_float (some g.1) ≠ none ∧ to_float (some g.2) ≠ none := by
    intro g hg
    obtain ⟨l', r', hmem⟩ := psearch_mem hg
    obtain ⟨⟨l1, r1, hp1⟩, ⟨l2, r2, hp2⟩⟩ := patCurrents_mem hmem
    exact ⟨Option.ne_none_iff_isSome.mpr (pnum_to_float hp1),
      Option.ne_none_iff_isSome.mpr (pnum_to_float hp2)⟩
  have hCR : ∀ g : List Char × List Char,
      psearch patCRates text = some g →
      to_float (some g.1) ≠ none ∧ to_float (some g.2) ≠ none := by
    intro g hg
    obtain ⟨l', r', hmem⟩ := psearch_mem hg
    obtain ⟨⟨l1, r1, hp1⟩, ⟨l2, r2, hp2⟩⟩ := patCRates_mem hmem
    exact ⟨Option.ne_none_iff_isSome.mpr (pnum_to_float hp1),
      Option.ne_none_iff_isSome.mpr (pnum_to_float hp2)⟩
  rcases hpc : psearch patCurrents text with _ | g
  · rcases hpr : psearch patCRates text with _ | g2
    · simp [parse_current_range, hpc, hpr]
    · obtain ⟨hf1, hf2⟩ := hCR g2 hpr
      simp [parse_current_range, hpc, hpr, hf1, hf2]
  · obtain ⟨hc1, hc2⟩ := hCur g hpc
    rcases hpr : psearch patCRates text with _ | g2
    · simp [parse_current_range, hpc, hpr, hc1, hc2]
    · obtain ⟨hf1, hf2⟩ := hCR g2 hpr
      simp [parse_current_range, hpc, hpr, hc1, hc2, hf1, hf2]

/-! ### The remaining patterns of `parse_cell_page` -/

/-- The dimension pattern
`([0-9]+(?:\.[0-9]+)?)\s*[x×]\s*([0-9]+(?:\.[0-9]+)?)`. -/
def patDim : Pat (List Char × List Char) :=
  pbind pnumU fun g1 =>
  pbind pws fun _ =>
  pbind (pchar (fun c => c = 'x' || c = '×')) fun _ =>
  pbind pws fun _ =>
  pbind pnumU fun g2 =>
  ppure (g1, g2)

/-- The weight pattern `([0-9]+(?:\.[0-9]+)?)\s*g`. -/
def patWeight : Pat (List Char) :=
  pbind pnumU fun g =>
  pbind pws fun _ =>
  pbind (plit "g".toList) fun _ =>
  ppure g

/-- A block-field pattern `<stem>\s*NUM\s*<unit>` with one numeric group,
as used by all `parse_first_float` call sites. -/
def patStem (stem : Pat Unit) (unit : List Char) : Pat (List Char) :=
  pbind stem fun _ =>
  pbind pws fun _ =>
  pbind pnumU fun g =>
  pbind pws fun _ =>
  pbind (plit unit) fun _ =>
  ppure g

/-- The stem `contin\w*`. -/
def stemContin : Pat Unit := pthen (plit "contin".toList) (pignore (pstar isWordChar))

/-- The stem `gravi\w*`. -/
def stemGravi : Pat Unit := pthen (plit "gravi".toList) (pignore (pstar isWordChar))

/-- The model-version pattern `Batemo Cell Model Version\s*([0-9.]+)`. -/
def patVersion : Pat (List Char) :=
  pbind (plit "Batemo Cell Model Version".toList) fun _ =>
  pbind pws fun _ =>
  pbind (pplus isDigitDot) fun g =>
  ppure g

/-- The release-date pattern
`Release Date\s*([A-Za-z]+\s+\d{1,2},\s+\d{4})`. -/
def pdigits12 : Pat (List Char) := fun l =>
  match l with
  | c1 :: c2 :: r =>
    if c1.isDigit && c2.isDigit then [([c1, c2], r), ([c1], c2 :: r)]
    else if c1.isDigit then [([c1], c2 :: r)] else []
  | [c1] => if c1.isDigit then [([c1], [])] else []
  | [] => []

def pdigits4 : Pat (List Char) := fun l =>
  match l with
  | c1 :: c2 :: c3 :: c4 :: r =>
    if c1.isDigit && c2.isDigit && c3.isDigit && c4.isDigit then
      [([c1, c2, c3, c4], r)]
    else []
  | _ => []

def patDate : Pat (List Char) :=
  pbind (plit "Release Date".toList) fun _ =>
  pbind pws fun _ =>
  pbind (pplus Char.isAlpha) fun mon =>
  pbind (pplus isPySpace) fun w1 =>
  pbind pdigits12 fun day =>
  pbind (plit ",".toList) fun _ =>
  pbind (pplus isPySpace) fun w2 =>
  pbind pdigits4 fun yr =>
  ppure (mon ++ w1 ++ day ++ ',' :: (w2 ++ yr))

/-- `parse_first_float` from `scrape_cells.py`: absent block (or empty
text) yields absence; otherwise search the block for the pattern's first
match and parse the captured group via `to_float`. -/
def parse_first_float (block : Option (List Char)) (pat : Pat (List Char)) :
    Option ℚ :=
  match block with
  | none => none
  | some b =>
    if b.isEmpty then none
    else
      match psearch pat b with
      | none => none
      | some g => to_float (some g)

/-- The simple-range pattern
`label\s*([-0-9.,]+)\s*[.…]+\s*([-0-9.,]+)\s*unit` (the unit suffix is
omitted when no unit is supplied). -/
def patRange (label : List Char) (unit : Option (List Char)) :
    Pat (List Char × List Char) :=
  pbind (plit label) fun _ =>
  pbind pws fun _ =>
  pbind (pplus isRangeNumChar) fun g1 =>
  pbind pws fun _ =>
  pbind (pignore (pplus isDotChar)) fun _ =>
  pbind pws fun _ =>
  pbind (pplus isRangeNumChar) fun g2 =>
  match unit with
  | some u =>
    pbind pws fun _ =>
    pbind (plit u) fun _ =>
    ppure (g1, g2)
  | none => ppure (g1, g2)

/-- `parse_range_simple` from `scrape_cells.py`. -/
def parse_range_simple (text label : List Char) (unit : Option (List Char)) :
    Option ℚ × Option ℚ :=
  match psearch (patRange label unit) text with
  | none => (none, none)
  | some g => (to_float (some g.1), to_float (some g.2))

/-! ### Release-date conversion (`datetime.strptime("%B %d, %Y")`) -/

def monthNames : List (List Char) :=
  ["january".toList, "february".toList, "march".toList, "april".toList,
   "may".toList, "june".toList, "july".toList, "august".toList,
   "september".toList, "october".toList, "november".toList,
   "december".toList]

def isLeapYear (y : ℕ) : Bool :=
  (y % 4 = 0 && y % 100 ≠ 0) || y % 400 = 0

def daysInMonth (y m : ℕ) : ℕ :=
  if m = 2 then (if isLeapYear y then 29 else 28)
  else if m = 4 || m = 6 || m = 9 || m = 11 then 30
  else 31

/-- The numeric value of a 1- or 2-digit day token under the `%d`
sub-regex `3[01]|[12]\d|0[1-9]|[1-9]` (with backtracking against the
following literal comma): valid iff one digit with value 1–9 or two digits
with value 1–31. -/
def dayTokenVal (tok : List Char) : Option ℕ :=
  if tok.length = 1 then
    (if 1 ≤ digitsVal tok ∧ digitsVal tok ≤ 9 then some (digitsVal tok)
     else none)
  else if tok.length = 2 then
    (if 1 ≤ digitsVal tok ∧ digitsVal tok ≤ 31 then some (digitsVal tok)
     else none)
  else none

/-- Model of `datetime.strptime(raw, "%B %d, %Y").date()`: a full English
month name (case-insensitive), whitespace, a 1-2 digit day, a comma,
whitespace, a 4-digit year; the day must exist in the month and the year
be at least `datetime.MINYEAR = 1`.  Returns `(year, month, day)` or
`none` where `strptime`/`datetime` raises `ValueError`. -/
def strptime_BdY (s : List Char) : Option (ℕ × ℕ × ℕ) :=
  let sl := s.map Char.toLower
  match monthNames.findIdx? (fun nm => leadsList nm sl) with
  | none => none
  | some i =>
    let nm := monthNames.getD i []
    let month := i + 1
    let rest := s.drop nm.length
    let rest2 := rest.dropWhile isPySpace
    if rest2.length = rest.length then none
    else
      let dtok := rest2.takeWhile Char.isDigit
      let rest3 := rest2.dropWhile Char.isDigit
      match dayTokenVal dtok with
      | none => none
      | some day =>
        match rest3 with
        | ',' :: rest4 =>
          let rest5 := rest4.dropWhile isPySpace
          if rest5.length = rest4.length then none
          else
            let ytok := rest5.takeWhile Char.isDigit
            let rest6 := rest5.dropWhile Char.isDigit
            if ytok.length = 4 && rest6.isEmpty then
              let year := digitsVal ytok
              if 1 ≤ year ∧ day ≤ daysInMonth year month then
                some (year, month, day)
              else none
            else none
        | _ => none

def padNat (width n : ℕ) : List Char :=
  let ds := (Nat.toDigits 10 n)
  List.replicate (width - ds.length) '0' ++ ds

/-- `date(y, m, d).isoformat()`: `YYYY-MM-DD`. -/
def isoDate (ymd : ℕ × ℕ × ℕ) : List Char :=
  padNat 4 ymd.1 ++ '-' :: (padNat 2 ymd.2.1 ++ '-' :: padNat 2 ymd.2.2)

/-! ### Finding the `h1` element -/

mutual

/-- BeautifulSoup `soup.find(tag)`: the first element with the given tag
in document order. -/
def findTag (tag : List Char) : Node → Option Node
  | Node.text _ => none
  | Node.elem t cs =>
    if t = tag then some (Node.elem t cs) else findTagList tag cs

def findTagList (tag : List Char) : List Node → Option Node
  | [] => none
  | n :: ns =>
    match findTag tag n with
    | some e => some e
    | none => findTagList tag ns

end

/-! ### URL path and slug -/

/-- Everything before the first occurrence of the character. -/
def takeUntil (c : Char) (l : List Char) : List Char :=
  l.takeWhile (fun x => !(x = c))

/-- Characters allowed in a URL scheme after the leading letter. -/
def isSchemeChar (c : Char) : Bool :=
  c.isAlphanum || c = '+' || c = '-' || c = '.'

/-- Drop a leading `scheme:` when present. -/
def stripScheme (l : List Char) : List Char :=
  let pre := l.takeWhile (fun x => !(x = ':'))
  if pre.length < l.length ∧ pre ≠ [] ∧
      (pre.headD ' ').isAlpha ∧ (∀ c ∈ pre, isSchemeChar c = true) then
    l.drop (pre.length + 1)
  else l

/-- Drop a leading `//netloc` when present (the path then starts at the
next `/`, or is empty). -/
def dropNetloc (l : List Char) : List Char :=
  if leadsList "//".toList l then (l.drop 2).dropWhile (fun x => !(x = '/'))
  else l

/-- `urlsplit` removes every tab, carriage return and newline from the URL
before any other processing (`_UNSAFE_URL_BYTES_TO_REMOVE`). -/
def stripUnsafe (url : List Char) : List Char :=
  url.filter (fun c => !(c = '\t' || c = '\r' || c = '\n'))

/-- The path component of `urllib.parse.urlparse(url)`: strip the unsafe
bytes, the fragment, the query, the scheme and the authority; what remains
is the path.  This is only the *value* on the non-raising branch of
`urlparse`; the `ValueError` branch is modelled by `urlParseChecked`. -/
def urlPath (url : List Char) : List Char :=
  dropNetloc (stripScheme (takeUntil '?' (takeUntil '#' (stripUnsafe url))))

/-- Python `s.rstrip("/")`. -/
def rstripSlash (l : List Char) : List Char :=
  (l.reverse.dropWhile (fun x => x = '/')).reverse

/-- Python `s.split("/")` (single-character separator, keeps empties). -/
def splitSlashAux : List Char → List Char → List (List Char)
  | [], acc => [acc.reverse]
  | x :: xs, acc =>
    if x = '/' then acc.reverse :: splitSlashAux xs []
    else splitSlashAux xs (x :: acc)

def splitSlash (l : List Char) : List (List Char) := splitSlashAux l []

/-- The slug of `parse_cell_page`:
`urlparse(url).path.rstrip("/").split("/")[-1]`. -/
def slugOfUrl (url : List Char) : List Char :=
  (splitSlash (rstripSlash (urlPath url))).getLastD []

/-! ### `parse_cell_page` -/

/-- A value stored in the record dict: a string, a float, or `None`. -/
inductive Value where
  | vstr (s : List Char)
  | vnum (q : ℚ)
  | vnone
deriving DecidableEq

def toValS : Option (List Char) → Value
  | some s => Value.vstr s
  | none => Value.vnone

def toValN : Option ℚ → Value
  | some q => Value.vnum q
  | none => Value.vnone

/-- An HTML page input: the raw text plus its parsed document tree
(`BeautifulSoup(html, "lxml")` is the engine's input boundary). -/
structure Html where
  raw : List Char
  dom : Node

/-- `parse_cell_page` from `scrape_cells.py`, as the ordered record dict it
builds.  Every key is assigned on every run; a failed extraction stores
`None` (here `Value.vnone`). -/
def parse_cell_page (html : Html) (url : List Char) :
    List (String × Value) :=
  let soup := html.dom
  let text := get_text_strip "\n".toList soup
  let norm_text := normalize_whitespace text
  let name : Option (List Char) :=
    (findTag "h1".toList soup).map (fun h1 => get_text_strip [] h1)
  let slug := slugOfUrl url
  let cell_origin := extract_label_value soup "Cell Origin".toList
  let cell_format := extract_label_value soup "Cell Format".toList
  let dim_raw := extract_label_value soup "Dimen".toList
  let dimPair : Option (List Char × List Char) :=
    match dim_raw with
    | none => none
    | some d => psearch patDim d
  let diameter_mm : Option ℚ :=
    match dimPair with
    | some g => to_float (some g.1)
    | none => none
  let height_mm : Option ℚ :=
    match dimPair with
    | some g => to_float (some g.2)
    | none => none
  let weight_raw := extract_label_value soup "Weight".toList
  let weight_g : Option ℚ :=
    match weight_raw with
    | none => none
    | some w =>
      match psearch patWeight w with
      | some g => to_float (some g)
      | none => to_float (some w)
  let cap_block := extract_block norm_text "Capacity".toList
    [" Current".toList, " Energy".toList, " Power".toList,
     " Energy Density".toList, " Power Density".toList]
  let current_block := extract_block norm_text "Current".toList
    [" Energy".toList, " Power".toList, " Energy Density".toList,
     " Power Density".toList]
  let energy_block := extract_block norm_text "Energy".toList
    [" Power".toList, " Energy Density".toList, " Power Density".toList]
  let power_block := extract_block norm_text "Power".toList
    [" Energy Density".toList, " Power Density".toList]
  let energy_density_block := extract_block norm_text "Energy Density".toList
    [" Power Density".toList, " Batemo Cell Model Version".toList]
  let power_density_block := extract_block norm_text "Power Density".toList
    [" Batemo Cell Model Version".toList, "##".toList,
     " Batemo Cell Model".toList]
  let nominal_capacity_Ah :=
    parse_first_float cap_block (patStem (plit "nominal".toList) "Ah".toList)
  let c10_capacity_Ah :=
    parse_first_float cap_block (patStem (plit "C/10".toList) "Ah".toList)
  let continuous_current_A :=
    parse_first_float current_block (patStem stemContin "A".toList)
  let peak_current_A :=
    parse_first_float current_block (patStem (plit "peak".toList) "A".toList)
  let c10_energy_Wh :=
    parse_first_float energy_block (patStem (plit "C/10".toList) "Wh".toList)
  let continuous_power_W :=
    parse_first_float power_block (patStem stemContin "W".toList)
  let peak_power_W :=
    parse_first_float power_block (patStem (plit "peak".toList) "W".toList)
  let energy_density_Wh_per_kg :=
    parse_first_float energy_density_block (patStem stemGravi "Wh/kg".toList)
  let energy_density_Wh_per_l :=
    parse_first_float energy_density_block
      (patStem (plit "volumetric".toList) "Wh/l".toList)
  let power_density_kW_per_kg :=
    parse_first_float power_density_block (patStem stemGravi "kW/kg".toList)
  let power_density_kW_per_l :=
    parse_first_float power_density_block
      (patStem (plit "volumetric".toList) "kW/l".toList)
  let cell_model_version := psearch patVersion norm_text
  let cell_model_release_date : Option (List Char) :=
    match psearch patDate norm_text with
    | none => none
    | some raw =>
      match strptime_BdY raw with
      | some ymd => some (isoDate ymd)
      | none => some raw
  let socPair := parse_range_simple norm_text
    "State of Charge Range".toList (some "%".toList)
  let currents := parse_current_range norm_text
  let vPair := parse_range_simple norm_text
    "Voltage Range".toList (some "V".toList)
  let tPair := parse_range_simple norm_text
    "Temper".toList (some "°C".toList)
  let derived := derivedMetrics c10_capacity_Ah c10_energy_Wh peak_power_W
    peak_current_A nominal_capacity_Ah continuous_current_A
  [("name", toValS name),
   ("slug", Value.vstr slug),
   ("detail_url", Value.vstr url),
   ("cell_origin", toValS cell_origin),
   ("cell_format", toValS cell_format),
   ("dimensions_raw", toValS dim_raw),
   ("diameter_mm", toValN diameter_mm),
   ("height_mm", toValN height_mm),
   ("weight_g", toValN weight_g),
   ("nominal_capacity_Ah", toValN nominal_capacity_Ah),
   ("c10_capacity_Ah", toValN c10_capacity_Ah),
   ("continuous_current_A", toValN continuous_current_A),
   ("peak_current_A", toValN peak_current_A),
   ("c10_energy_Wh", toValN c10_energy_Wh),
   ("continuous_power_W", toValN continuous_power_W),
   ("peak_power_W", toValN peak_power_W),
   ("energy_density_Wh_per_kg", toValN energy_density_Wh_per_kg),
   ("energy_density_Wh_per_l", toValN energy_density_Wh_per_l),
   ("power_density_kW_per_kg", toValN power_density_kW_per_kg),
   ("power_density_kW_per_l", toValN power_density_kW_per_l),
   ("cell_model_version", toValS cell_model_version),
   ("cell_model_release_date", toValS cell_model_release_date),
   ("soc_min_pct", toValN socPair.1),
   ("soc_max_pct", toValN socPair.2),
   ("current_discharge_min_A", toValN currents.1),
   ("current_charge_max_A", toValN currents.2.1),
   ("current_c_min", toValN currents.2.2.1),
   ("current_c_max", toValN currents.2.2.2),
   ("voltage_min_V", toValN vPair.1),
   ("voltage_max_V", toValN vPair.2),
   ("temp_min_C", toValN tPair.1),
   ("temp_max_C", toValN tPair.2),
   ("mean_voltage_c10_V", toValN derived.1),
   ("mean_voltage_peak_V", toValN derived.2.1),
   ("r_eff_mOhm", toValN derived.2.2.1),
   ("c_rate_continuous", toValN derived.2.2.2.1),
   ("c_rate_peak", toValN derived.2.2.2.2),
   ("raw_html", Value.vstr html.raw)]

/-- `data.get(key)` on the record dict. -/
def getField (r : List (String × Value)) (k : String) : Value :=
  match r.find? (fun p => p.1 == k) with
  | some p => p.2
  | none => Value.vnone

/-- Python truthiness of a record value (`None`, `""` and `0.0` falsy). -/
def valueTruthy : Value → Bool
  | Value.vstr s => !s.isEmpty
  | Value.vnum q => !(q == 0)
  | Value.vnone => false

/-- The record-level classification of `scrape_all`
(`if not data.get("name") or not slug`): `true` means the record is
counted as a parse error, `false` that it is accepted and upserted. -/
def record_parse_failed (r : List (String × Value)) : Bool :=
  !valueTruthy (getField r "name") || !valueTruthy (getField r "slug")

/-- A page with no `h1` heading. -/
def c2html : Html := ⟨"<html></html>".toList, Node.elem "[document]".toList []⟩

/-- A product URL whose path yields the slug `cell-x`. -/
def c2url : List Char := "https://www.batemo.com/products/cell-x/".toList

/-- **C2, counterexample.**  A document with no heading (`name` absent) but
a perfectly good slug is counted as a record-level parse failure by
`scrape_all` (`if not data.get("name") or not slug`), although only one of
the two identity fields is absent — refuting "failure iff BOTH absent". -/
theorem record_gate_cex :
    record_parse_failed (parse_cell_page c2html c2url) = true ∧
    getField (parse_cell_page c2html c2url) "name" = Value.vnone ∧
    getField (parse_cell_page c2html c2url) "slug" =
      Value.vstr "cell-x".toList ∧
    "cell-x".toList ≠ [] := by
  refine ⟨by decide, by decide, by decide, by decide⟩

/-- **C2, amended.**  A record is accepted and handed to storage (upsert)
iff the extracted name is present and non-empty AND the slug is non-empty;
it is classified a record-level parse failure as soon as *either* of the
two is absent/empty (`not name or not slug`), regardless of how many other
optional fields are absent (which the classifier never inspects). -/
theorem record_gate_spec (html : Html) (url : List Char) :
    record_parse_failed (parse_cell_page html url) = false ↔
      ((∃ h1, findTag "h1".toList html.dom = some h1 ∧
          get_text_strip [] h1 ≠ []) ∧ slugOfUrl url ≠ []) := by
  have hname : getField (parse_cell_page html url) "name" =
      toValS ((findTag "h1".toList html.dom).map
        (fun h1 => get_text_strip [] h1)) := rfl
  have hslug : getField (parse_cell_page html url) "slug" =
      Value.vstr (slugOfUrl url) := rfl
  unfold record_parse_failed
  rw [hname, hslug]
  rcases hft : findTag "h1".toList html.dom with _ | h1
  · simp [toValS, valueTruthy]
  · simp only [Option.map_some', toValS, valueTruthy]
    constructor
    · intro h
      simp only [Bool.or_eq_false_iff, Bool.not_eq_false',
        Bool.not_eq_false] at h
      obtain ⟨h1e, h2e⟩ := h
      refine ⟨⟨h1, rfl, ?_⟩, ?_⟩
      · intro hnil
        rw [hnil] at h1e
        cases h1e
      · intro hnil
        rw [hnil] at h2e
        cases h2e
    · rintro ⟨⟨h1', heq, hne⟩, hsne⟩
      injection heq with heq'
      subst heq'
      simp only [Bool.or_eq_false_iff, Bool.not_eq_false',
        Bool.not_eq_false]
      constructor
      · rcases hx : get_text_strip [] h1 with _ | ⟨c, t⟩
        · exact absurd hx hne
        · simp
      · rcases hx : slugOfUrl url with _ | ⟨c, t⟩
        · exact absurd hx hsne
        · simp

/-- **C8.**  For every document and URL whose record the engine accepts
(the `scrape_all` gate passes, so the record is handed to `upsert_cell`),
the slug stored in the record is the non-empty string derived
deterministically from the URL's path. -/
theorem slug_nonempty_spec (html : Html) (url : List Char)
    (h : record_parse_failed (parse_cell_page html url) = false) :
    getField (parse_cell_page html url) "slug" =
      Value.vstr (slugOfUrl url) ∧ slugOfUrl url ≠ [] := by
  refine ⟨rfl, ?_⟩
  have hslug : getField (parse_cell_page html url) "slug" =
      Value.vstr (slugOfUrl url) := rfl
  unfold record_parse_failed at h
  rw [hslug] at h
  simp only [Bool.or_eq_false_iff, Bool.not_eq_false', valueTruthy] at h
  intro hnil
  rw [hnil] at h
  exact absurd h.2 (by decide)

/-- A page with an `h1` heading, to exercise the acceptance gate. -/
def c8html : Html :=
  ⟨"<html><h1>Molicel P28A</h1></html>".toList,
   Node.elem "[document]".toList
     [Node.elem "h1".toList [Node.text "Molicel P28A".toList]]⟩

def c8url : List Char := "https://www.batemo.com/products/molicel-p28a/".toList

/-- **C8, witness.**  The theorem applied to a concrete accepted page. -/
theorem slug_nonempty_spec_witness :
    getField (parse_cell_page c8html c8url) "slug" =
      Value.vstr (slugOfUrl c8url) ∧ slugOfUrl c8url ≠ [] :=
  slug_nonempty_spec c8html c8url (by decide)

end Batemo
